import Mathlib

/-! Verification of the jest-auto-shard core.

This file gives a shallow embedding of the shard-scheduling core of the
jest-auto-shard repository: the four test-distribution strategies of
src/sharding-strategy.ts (RoundRobinStrategy, HashBasedStrategy,
FileSizeStrategy, SmartStrategy) and the lock-file coordinator
AutoShardCoordinator of src/auto-shard.ts, together with theorems that
check the natural-language specification's claims against that embedding.

Modelling conventions:
* JavaScript numbers that the code only ever uses as non-negative integers
  (array indices, sizes, durations, timestamps, pids, exit codes) become
  `Nat`; the shard index becomes `Int` because the code computes
  `shardInfo.index - 1` before any range check and a 0 index must give the
  JavaScript value -1, not a truncated 0.
* A JavaScript array access `a[k]` that can be out of range, followed by a
  property access that would throw a TypeError, is embedded as an
  `Option`-valued function returning `none` in the throwing case.
* The md5 content hash of HashBasedStrategy (first 8 hex digits parsed as a
  number) is an arbitrary parameter `hash : String → Nat`: every claim
  about it is proved for all such functions.
* `Array.prototype.sort` with comparator `(a, b) => b.size - a.size` is a
  stable descending sort (stability is guaranteed since ES2019); it is
  embedded as a stable descending insertion sort, which produces the same
  list: elements in descending key order, ties in original order.
-/

namespace JestAutoShard

open List

/-- Shard descriptor (interface ShardInfo of src/types.ts): 1-based shard
index and total shard count. -/
structure ShardInfo where
  index : Int
  total : Nat
deriving DecidableEq, Repr

/-- Embedding of RoundRobinStrategy.distributeTests:
`testPaths.filter((_, index) => index % shardInfo.total === shardInfo.index - 1)`.
The `total = 0` guard embeds the JavaScript fact that `index % 0` is NaN,
which compares unequal to everything, so the filter keeps nothing. -/
def RoundRobinStrategy.distributeTests (testPaths : List String)
    (shardInfo : ShardInfo) : List String :=
  if shardInfo.total = 0 then []
  else (testPaths.enum.filter fun e =>
    (e.1 : Int) % (shardInfo.total : Int) = shardInfo.index - 1).map Prod.snd

/-- Embedding of HashBasedStrategy.distributeTests: keep the paths whose
content hash (md5, first 8 hex digits as a number, here the parameter
`hash`) reduced modulo the total selects this shard:
`(hashNum % shardInfo.total) === (shardInfo.index - 1)`. -/
def HashBasedStrategy.distributeTests (hash : String → Nat)
    (testPaths : List String) (shardInfo : ShardInfo) : List String :=
  if shardInfo.total = 0 then []
  else testPaths.filter fun p =>
    ((hash p % shardInfo.total : Nat) : Int) = shardInfo.index - 1

/-- One accumulating shard of the greedy balancers: the collected paths and
the running total cost (`{ paths: string[]; totalSize: number }` in
FileSizeStrategy, `totalDuration` in SmartStrategy). -/
abbrev Shard := List String × Nat

/-- Embedding of the reduce
`shards.reduce((min, shard, index) => shard.totalSize < shards[min].totalSize ? index : min, 0)`:
index of the shard with the smallest running total, ties resolved to the
lowest index. -/
def minShardIdx (shards : List Shard) : Nat :=
  shards.enum.foldl
    (fun m e => if e.2.2 < (shards.getD m ([], 0)).2 then e.1 else m) 0

/-- Embedding of the loop body of the greedy balancers: push the item's path
onto the least-loaded shard and add its cost to that shard's total. -/
def greedyAssign (shards : List Shard) (item : String × Nat) : List Shard :=
  shards.set (minShardIdx shards)
    ((shards.getD (minShardIdx shards) ([], 0)).1 ++ [item.1],
     (shards.getD (minShardIdx shards) ([], 0)).2 + item.2)

/-- Stable insertion of an item into a cost-descending list: the item goes
in front of the first strictly cheaper element, after all items of equal or
larger cost that were originally earlier. -/
def insertByCostDesc (x : String × Nat) :
    List (String × Nat) → List (String × Nat)
  | [] => [x]
  | y :: ys => if y.2 ≤ x.2 then x :: y :: ys else y :: insertByCostDesc x ys

/-- Embedding of `arr.sort((a, b) => b.cost - a.cost)`: the stable
descending sort by cost. -/
def sortByCostDesc (l : List (String × Nat)) : List (String × Nat) :=
  l.foldr insertByCostDesc []

/-- Common core of FileSizeStrategy.distributeTests and
SmartStrategy.distributeTests (the two method bodies are identical up to
the cost source): pair each path with its cost, sort descending, fold the
greedy assignment over `total` empty shards, and return the queried
shard's paths, `return shards[shardInfo.index - 1].paths`. When
`shardInfo.index - 1` is outside `[0, total)` the JavaScript array access
yields `undefined` and `.paths` throws a TypeError; that case is `none`. -/
def lptDistribute (cost : String → Nat) (testPaths : List String)
    (shardInfo : ShardInfo) : Option (List String) :=
  if 0 ≤ shardInfo.index - 1 ∧ shardInfo.index - 1 < (shardInfo.total : Int)
  then some ((((sortByCostDesc (testPaths.map fun p => (p, cost p))).foldl
      greedyAssign (List.replicate shardInfo.total ([], 0))).getD
      (shardInfo.index - 1).toNat ([], 0)).1)
  else none

/-- Embedding of FileSizeStrategy.distributeTests, parameterized by the
file-size lookup `sizeOf` (the code's `fs.statSync(path).size`, with 0 for
unreadable files already folded into the lookup). -/
def FileSizeStrategy.distributeTests (sizeOf : String → Nat)
    (testPaths : List String) (shardInfo : ShardInfo) : Option (List String) :=
  lptDistribute sizeOf testPaths shardInfo

/-- Embedding of `this.testHistory.get(path) || 1000` in SmartStrategy: a
missing entry and a recorded duration of 0 (JavaScript falsy) both fall
back to the default cost 1000. -/
def SmartStrategy.duration (testHistory : String → Option Nat)
    (p : String) : Nat :=
  match testHistory p with
  | some d => if d = 0 then 1000 else d
  | none => 1000

/-- Embedding of SmartStrategy.distributeTests: the same greedy balancer
with the duration history as cost source. -/
def SmartStrategy.distributeTests (testHistory : String → Option Nat)
    (testPaths : List String) (shardInfo : ShardInfo) : Option (List String) :=
  lptDistribute (SmartStrategy.duration testHistory) testPaths shardInfo

/-! Coordinator embedding (AutoShardCoordinator of src/auto-shard.ts).

The coordinator's persistent state is the coordination directory: one
status file mapping shard ids to records, and one lock file per currently
claimed shard id. That state is embedded as two partial maps. The
interesting fragment of `acquireShardLock` appears in three guises below,
each faithful to the source at a different interference granularity:

* `acquireShardLockSeq` — the whole call executed with no concurrent
  mutation of the directory, as it runs inside a single process's
  `determineNextAvailableShard` scan: after the code unlinks a stale,
  dead-owner or corrupted lock, its recursive retry finds the file absent
  and the exclusive create succeeds.
* `acquireShardLockTrace` — the call against an explicit interference
  trace recording what the lock file holds at each exclusive-create
  attempt, exposing the recursion depth (claim C5).
* `raceStep`/`raceRun` — a two-process interleaving of the call at the
  atomicity the filesystem provides, for the mutual-exclusion claim C2.
-/

/-- Contents of a lock file `shard-<id>.lock`:
`{ pid: process.pid, timestamp: Date.now(), hostname: os.hostname() }`. -/
structure LockData where
  pid : Nat
  timestamp : Nat
  hostname : String
deriving DecidableEq, Repr

/-- Staleness threshold of acquireShardLock: 5 minutes in milliseconds. -/
def staleMs : Nat := 300000

/-- Lifecycle states of a shard record
(`'pending' | 'running' | 'completed' | 'failed'`). -/
inductive ShardLifecycle
  | pending
  | running
  | completed
  | failed
deriving DecidableEq, Repr

/-- One record of the persisted status table (interface ShardStatus of
src/auto-shard.ts). -/
structure ShardStatusRec where
  shardId : Nat
  status : ShardLifecycle
  pid : Option Nat
  startTime : Option Nat
  endTime : Option Nat
  exitCode : Option Nat
deriving DecidableEq, Repr

/-- Persistent state of the coordination directory: the parsed status file
(`none` for an id with no entry) and the lock files (`none` for an absent
lock file). -/
structure CoordState where
  statuses : Nat → Option ShardStatusRec
  locks : Nat → Option LockData

/-- Coordination directory of a fresh run: no status entries, no locks. -/
def CoordState.empty : CoordState :=
  { statuses := fun _ => none, locks := fun _ => none }

/-- Sequential semantics of AutoShardCoordinator.acquireShardLock when no
other process touches the directory during the call. If the lock file is
absent the exclusive create (`flag: 'wx'`) succeeds. If it exists the code
reads it; a stale record (`Date.now() - lockData.timestamp > 300000`) or,
on a non-win32 platform, a dead owner (`process.kill(pid, 0)` throwing) is
unlinked and the code retries itself — with no interference the retry's
create succeeds. A fresh lock with a live owner (or any fresh lock on
win32) leaves the call returning false. Returns the result together with
the updated lock map. -/
def acquireShardLockSeq (alive : Nat → Bool) (isWin32 : Bool)
    (now pid : Nat) (host : String) (locks : Nat → Option LockData)
    (shardId : Nat) : Bool × (Nat → Option LockData) :=
  let claimed : Nat → Option LockData := fun j =>
    if j = shardId then some ⟨pid, now, host⟩ else locks j
  match locks shardId with
  | none => (true, claimed)
  | some d =>
    if now - d.timestamp > staleMs then (true, claimed)
    else if isWin32 then (false, locks)
    else if alive d.pid then (false, locks)
    else (true, claimed)

/-- What one exclusive-create attempt of acquireShardLock observes in the
lock file: absent (the create succeeds), unparseable contents (the
`JSON.parse` throws, the corrupted-lock branch), or a parsed record. -/
inductive LockObs
  | absent
  | corrupted
  | present (d : LockData)
deriving DecidableEq, Repr

/-- Embedding of AutoShardCoordinator.acquireShardLock against an explicit
interference trace: element k of the trace is what the k-th
exclusive-create attempt observes in the lock file, paired with
`Date.now()` at that attempt. Returns the call's result and the number of
create attempts performed. Each of the three unlink branches of the source
(stale, corrupted, dead owner) is followed by the literal recursive call
`return this.acquireShardLock(shardId)`, which consumes the rest of the
trace; an exhausted trace ends the run with no further attempt. -/
def acquireShardLockTrace (alive : Nat → Bool) (isWin32 : Bool) :
    List (LockObs × Nat) → Bool × Nat
  | [] => (false, 0)
  | (obs, now) :: rest =>
    match obs with
    | .absent => (true, 1)
    | .corrupted =>
      let r := acquireShardLockTrace alive isWin32 rest
      (r.1, r.2 + 1)
    | .present d =>
      if now - d.timestamp > staleMs then
        let r := acquireShardLockTrace alive isWin32 rest
        (r.1, r.2 + 1)
      else if isWin32 then (false, 1)
      else if alive d.pid then (false, 1)
      else
        let r := acquireShardLockTrace alive isWin32 rest
        (r.1, r.2 + 1)

/-- Embedding of AutoShardCoordinator.releaseShardLock: delete the shard's
lock file, ignoring errors. -/
def releaseShardLock (locks : Nat → Option LockData) (shardId : Nat) :
    Nat → Option LockData :=
  fun j => if j = shardId then none else locks j

/-- Embedding of the initialization loop of determineNextAvailableShard:
every id 1..totalShards missing from the read status table is given a
fresh `{ shardId: i, status: 'pending' }` record (in memory; it is only
persisted if a claim later succeeds in the same call). -/
def initStatuses (totalShards : Nat) (st : Nat → Option ShardStatusRec) :
    Nat → Option ShardStatusRec :=
  fun i =>
    if 1 ≤ i ∧ i ≤ totalShards ∧ st i = none then
      some ⟨i, .pending, none, none, none, none⟩
    else st i

/-- Scan loop of determineNextAvailableShard over the listed candidate ids:
the first id whose (initialized) status is pending or failed and whose
lock is acquired is returned with its record and the lock map the
acquisition produced. -/
def scanNextShard (alive : Nat → Bool) (isWin32 : Bool) (now pid : Nat)
    (host : String) (locks : Nat → Option LockData)
    (sts : Nat → Option ShardStatusRec) :
    List Nat → Option (Nat × ShardStatusRec × (Nat → Option LockData))
  | [] => none
  | i :: rest =>
    match sts i with
    | some r =>
      if r.status = .pending ∨ r.status = .failed then
        if (acquireShardLockSeq alive isWin32 now pid host locks i).1 then
          some (i, r, (acquireShardLockSeq alive isWin32 now pid host locks i).2)
        else scanNextShard alive isWin32 now pid host locks sts rest
      else scanNextShard alive isWin32 now pid host locks sts rest
    | none => scanNextShard alive isWin32 now pid host locks sts rest

/-- Embedding of AutoShardCoordinator.determineNextAvailableShard under the
sequential lock semantics: read and initialize the status table, scan ids
1..totalShards ascending for a pending or failed shard whose lock can be
acquired, mark it running (recording pid and start time), persist the
whole initialized table, and return the id; with no claimable id return
`none` and persist nothing. -/
def determineNextAvailableShard (alive : Nat → Bool) (isWin32 : Bool)
    (totalShards now pid : Nat) (host : String) (s : CoordState) :
    Option Nat × CoordState :=
  let sts := initStatuses totalShards s.statuses
  match scanNextShard alive isWin32 now pid host s.locks sts
      (List.range' 1 totalShards) with
  | some (i, r, locks') =>
    (some i,
      { statuses := fun j =>
          if j = i then
            some { r with status := .running, pid := some pid,
                          startTime := some now }
          else sts j,
        locks := locks' })
  | none => (none, s)

/-- Embedding of AutoShardCoordinator.markShardComplete: if the read status
table has an entry for the id, set its status to completed when the exit
code is 0 and to failed otherwise, record end time and exit code, persist
the table, and delete the id's lock file; with no entry, do nothing at
all. -/
def markShardComplete (now : Nat) (s : CoordState) (shardId : Nat)
    (exitCode : Nat) : CoordState :=
  match s.statuses shardId with
  | none => s
  | some r =>
    { statuses := fun j =>
        if j = shardId then
          some { r with
            status := if exitCode = 0 then .completed else .failed,
            endTime := some now, exitCode := some exitCode }
        else s.statuses j,
      locks := releaseShardLock s.locks shardId }

/-- One public coordinator operation, for claims quantifying over operation
sequences. -/
inductive CoordOp
  | next (now pid : Nat) (host : String)
  | mark (shardId exitCode now : Nat)

/-- Apply one coordinator operation; `next` returns the claimed id. -/
def applyCoordOp (alive : Nat → Bool) (isWin32 : Bool) (totalShards : Nat)
    (s : CoordState) : CoordOp → Option Nat × CoordState
  | .next now pid host =>
    determineNextAvailableShard alive isWin32 totalShards now pid host s
  | .mark shardId exitCode now =>
    (none, markShardComplete now s shardId exitCode)

/-- Run a sequence of coordinator operations, collecting the values
returned by the `next` operations. -/
def applyCoordOps (alive : Nat → Bool) (isWin32 : Bool) (totalShards : Nat)
    (s : CoordState) : List CoordOp → List (Option Nat) × CoordState
  | [] => ([], s)
  | op :: ops =>
    let r := applyCoordOp alive isWin32 totalShards s op
    let t := applyCoordOps alive isWin32 totalShards r.2 ops
    (r.1 :: t.1, t.2)

/-! Two-process race model of acquireShardLock, for claim C2. Each process
executes the call on the same shard id; the filesystem serializes the
individual operations (exclusive create, read, unlink), so a process is at
one of three program points: about to attempt the exclusive create, about
to read an existing lock file, or done with a boolean result. A schedule
interleaves the two processes' atomic steps, each tagged with the value of
`Date.now()` at that step. -/

/-- Program points of one process inside acquireShardLock. -/
inductive RacePC
  | tryCreate
  | readCheck
  | done (res : Bool)
deriving DecidableEq, Repr

/-- Global state of the two-process race: the shared lock file and both
program counters. -/
structure RaceState where
  lock : Option LockData
  pcA : RacePC
  pcB : RacePC
deriving DecidableEq, Repr

/-- One atomic step of a single process inside acquireShardLock at time
`t`. At `tryCreate`, an absent lock means the exclusive create succeeds
(the process writes its record and returns true), an existing one means
EEXIST and the process moves on to read the file. At `readCheck`, a
meanwhile-deleted file makes the read throw, whereupon the unlink in the
corrupted-lock handler also throws and the call returns false; otherwise
the stale check, the win32 shortcut and the liveness probe run exactly as
in the source, the two unlink branches sending the process back to the
exclusive create (the recursive call). -/
def raceProcStep (alive : Nat → Bool) (isWin32 : Bool) (pid : Nat)
    (host : String) (t : Nat) (lock : Option LockData) (pc : RacePC) :
    Option LockData × RacePC :=
  match pc with
  | .done r => (lock, .done r)
  | .tryCreate =>
    match lock with
    | none => (some ⟨pid, t, host⟩, .done true)
    | some d => (some d, .readCheck)
  | .readCheck =>
    match lock with
    | none => (none, .done false)
    | some d =>
      if t - d.timestamp > staleMs then (none, .tryCreate)
      else if isWin32 then (some d, .done false)
      else if alive d.pid then (some d, .done false)
      else (none, .tryCreate)

/-- One step of the race: the scheduled process (true = A, false = B) makes
one atomic move at the given time. -/
def raceStep (alive : Nat → Bool) (isWin32 : Bool) (pidA pidB : Nat)
    (host : String) (s : RaceState) (turn : Bool) (t : Nat) : RaceState :=
  if turn then
    let r := raceProcStep alive isWin32 pidA host t s.lock s.pcA
    ⟨r.1, r.2, s.pcB⟩
  else
    let r := raceProcStep alive isWin32 pidB host t s.lock s.pcB
    ⟨r.1, s.pcA, r.2⟩

/-- Run a schedule of the two-process race. -/
def raceRun (alive : Nat → Bool) (isWin32 : Bool) (pidA pidB : Nat)
    (host : String) (s : RaceState) (sched : List (Bool × Nat)) : RaceState :=
  sched.foldl (fun st x => raceStep alive isWin32 pidA pidB host st x.1 x.2) s

/-- Initial state of the race on an unclaimed shard id: no lock file, both
processes about to attempt the exclusive create. -/
def raceInit : RaceState := ⟨none, .tryCreate, .tryCreate⟩

/-- Reading any position of a replicated list with the replicated value as
default always gives that value. -/
theorem getD_replicate_self {α : Type} (a : α) (n k : Nat) :
    (List.replicate n a).getD k a = a := by
  induction n generalizing k with
  | zero => cases k <;> rfl
  | succ m ih =>
    cases k with
    | zero => rfl
    | succ j => exact ih j

/-- Cost table of the concrete size-balanced scenario of the spec:
`{a:1000, b:2000, c:1500, d:500, e:3000, f:800}`. -/
def scenarioCost : String → Nat := fun p =>
  if p = "a" then 1000 else if p = "b" then 2000 else if p = "c" then 1500
  else if p = "d" then 500 else if p = "e" then 3000 else 800

/-- C7: for the size-balanced greedy strategy with costs
{a:1000, b:2000, c:1500, d:500, e:3000, f:800} and total = 2, the sort
yields e,b,c,a,f,d descending, and the greedy assignment (least-loaded
shard, ties to the lowest index) puts exactly {e,a,d} on shard 1 with
total cost 4500 and {b,c,f} on shard 2 with total cost 4300. -/
theorem c7_size_balanced_concrete_scenario :
    sortByCostDesc ((["a", "b", "c", "d", "e", "f"]).map
        fun p => (p, scenarioCost p)) =
      [("e", 3000), ("b", 2000), ("c", 1500), ("a", 1000), ("f", 800),
       ("d", 500)]
    ∧ FileSizeStrategy.distributeTests scenarioCost
        ["a", "b", "c", "d", "e", "f"] ⟨1, 2⟩ = some ["e", "a", "d"]
    ∧ FileSizeStrategy.distributeTests scenarioCost
        ["a", "b", "c", "d", "e", "f"] ⟨2, 2⟩ = some ["b", "c", "f"]
    ∧ (["e", "a", "d"].map scenarioCost).sum = 4500
    ∧ (["b", "c", "f"].map scenarioCost).sum = 4300 := by
  refine ⟨by decide, by decide, by decide, by decide, by decide⟩

/-- C10: markShardComplete on a shard id with no entry in the persisted
status table is a complete no-op: the status table is not rewritten, no
record is created, and the shard's lock file is not deleted — a lock held
for that id stays in place. -/
theorem c10_markShardComplete_missing_id_noop (s : CoordState)
    (shardId exitCode now : Nat) (h : s.statuses shardId = none) :
    markShardComplete now s shardId exitCode = s
    ∧ (markShardComplete now s shardId exitCode).locks shardId
        = s.locks shardId := by
  unfold markShardComplete
  rw [h]
  exact ⟨rfl, rfl⟩

/-- Witness for C10: a concrete state holding a lock for shard 1 but no
status entry; marking shard 1 complete changes nothing and the lock
survives. -/
theorem c10_witness :
    markShardComplete 99
        { statuses := fun _ => none,
          locks := fun j => if j = 1 then some ⟨77, 5, "host"⟩ else none }
        1 3
      = { statuses := fun _ => none,
          locks := fun j => if j = 1 then some ⟨77, 5, "host"⟩ else none }
    ∧ (markShardComplete 99
        { statuses := fun _ => none,
          locks := fun j => if j = 1 then some ⟨77, 5, "host"⟩ else none }
        1 3).locks 1
      = (({ statuses := fun _ => none,
            locks := fun j => if j = 1 then some ⟨77, 5, "host"⟩ else none } :
          CoordState)).locks 1 :=
  c10_markShardComplete_missing_id_noop _ 1 3 99 rfl

/-- C3 counterexample: the claim says every strategy returns an empty
subset, without raising, for a shard index outside [1, total]. For
FileSizeStrategy and SmartStrategy the source does
`return shards[shardInfo.index - 1].paths`: with index 3 of total 2 (or
index 0) the array access is `undefined` and `.paths` throws a TypeError,
embedded here as `none` — not an empty subset. -/
theorem c3_counterexample :
    FileSizeStrategy.distributeTests (fun _ => 0) ["a", "b"] ⟨3, 2⟩ = none
    ∧ SmartStrategy.distributeTests (fun _ => none) ["a"] ⟨0, 2⟩ = none := by
  exact ⟨rfl, rfl⟩

/-- C3 amended: RoundRobinStrategy and HashBasedStrategy return an empty
subset, without error, for any out-of-range index and for an empty test
list; FileSizeStrategy and SmartStrategy return an empty subset for an
empty test list when the index is inside [1, total], but raise a TypeError
(here `none`) for an index outside [1, total]. -/
theorem c3_amended_out_of_range_and_empty (hash sizeOf : String → Nat)
    (history : String → Option Nat) (tests : List String) (index : Int)
    (total : Nat) (htot : 1 ≤ total) :
    ((index < 1 ∨ (total : Int) < index) →
      RoundRobinStrategy.distributeTests tests ⟨index, total⟩ = []
      ∧ HashBasedStrategy.distributeTests hash tests ⟨index, total⟩ = []
      ∧ FileSizeStrategy.distributeTests sizeOf tests ⟨index, total⟩ = none
      ∧ SmartStrategy.distributeTests history tests ⟨index, total⟩ = none)
    ∧ RoundRobinStrategy.distributeTests [] ⟨index, total⟩ = []
    ∧ HashBasedStrategy.distributeTests hash [] ⟨index, total⟩ = []
    ∧ (1 ≤ index → index ≤ (total : Int) →
        FileSizeStrategy.distributeTests sizeOf [] ⟨index, total⟩ = some []
        ∧ SmartStrategy.distributeTests history [] ⟨index, total⟩
            = some []) := by
  have htot0 : total ≠ 0 := by omega
  have hmod : ∀ z : Int, 0 ≤ z % (total : Int) ∧ z % (total : Int) < total := by
    intro z
    constructor
    · exact Int.emod_nonneg z (by exact_mod_cast htot0)
    · exact Int.emod_lt_of_pos z (by exact_mod_cast htot)
  refine ⟨fun hout => ⟨?_, ?_, ?_, ?_⟩, ?_, ?_, fun h1 h2 => ⟨?_, ?_⟩⟩
  · unfold RoundRobinStrategy.distributeTests
    rw [if_neg htot0]
    have : (tests.enum.filter fun e =>
        decide ((e.1 : Int) % (total : Int) = index - 1)) = [] := by
      apply List.filter_eq_nil_iff.mpr
      intro e _
      have := hmod (e.1 : Int)
      simp only [decide_eq_true_eq]
      omega
    rw [this]; rfl
  · unfold HashBasedStrategy.distributeTests
    rw [if_neg htot0]
    apply List.filter_eq_nil_iff.mpr
    intro p _
    have h1 : (0 : Int) ≤ ((hash p % total : Nat) : Int) := by positivity
    have h2 : ((hash p % total : Nat) : Int) < (total : Int) := by
      exact_mod_cast Nat.mod_lt _ (by omega)
    simp only [decide_eq_true_eq]
    omega
  · unfold FileSizeStrategy.distributeTests lptDistribute
    rw [if_neg (by simp only [ShardInfo.index, ShardInfo.total]; omega)]
  · unfold SmartStrategy.distributeTests lptDistribute
    rw [if_neg (by simp only [ShardInfo.index, ShardInfo.total]; omega)]
  · unfold RoundRobinStrategy.distributeTests
    rw [if_neg htot0]; rfl
  · unfold HashBasedStrategy.distributeTests
    rw [if_neg htot0]; rfl
  · unfold FileSizeStrategy.distributeTests lptDistribute
    rw [if_pos (by simp only [ShardInfo.index, ShardInfo.total]; omega)]
    simp [sortByCostDesc, getD_replicate_self]
  · unfold SmartStrategy.distributeTests lptDistribute
    rw [if_pos (by simp only [ShardInfo.index, ShardInfo.total]; omega)]
    simp [sortByCostDesc, getD_replicate_self]

/-- Witness for C3's amended theorem at total = 2, index = 5. -/
theorem c3_amended_witness :
    RoundRobinStrategy.distributeTests ["x", "y"] ⟨5, 2⟩ = []
    ∧ FileSizeStrategy.distributeTests (fun _ => 0) ["x", "y"] ⟨5, 2⟩
        = none :=
  ⟨((c3_amended_out_of_range_and_empty (fun _ => 0) (fun _ => 0)
      (fun _ => none) ["x", "y"] 5 2 (by decide)).1 (by decide)).1,
   ((c3_amended_out_of_range_and_empty (fun _ => 0) (fun _ => 0)
      (fun _ => none) ["x", "y"] 5 2 (by decide)).1 (by decide)).2.2.1⟩

/-- C5 counterexample: the claim says that after one stale-lock deletion
the exclusive create is retried at most once, a second collision yielding
"not claimed". In the source every stale collision runs
`fs.unlinkSync(lockFile); return this.acquireShardLock(shardId)`: on a
trace where the first two create attempts both find a stale lock
(timestamp 0, read at time 400000 > 300000 past it) and the third finds
the file absent, the call performs three create attempts and returns
true — not the claimed at-most-two attempts with a not-claimed result on
the second collision. -/
theorem c5_counterexample :
    acquireShardLockTrace (fun _ => true) false
      [(.present ⟨5, 0, "h"⟩, 400000), (.present ⟨5, 0, "h"⟩, 400001),
       (.absent, 400002)]
      = (true, 3) := by
  decide

/-- C5 amended: after a stale lock is deleted the protocol retries by
recursively restarting the whole claim attempt, with no fixed retry cap:
a trace of n consecutive stale collisions followed by a free slot performs
n + 1 create attempts and succeeds, for every n (so the recursion depth is
unbounded under repeated interference), while a collision with a fresh
lock whose owner is alive immediately yields not-claimed after a single
create attempt. -/
theorem c5_amended_unbounded_retry (alive : Nat → Bool) (isWin32 : Bool)
    (d : LockData) (now t : Nat) (n : Nat)
    (hstale : staleMs < now - d.timestamp) :
    acquireShardLockTrace alive isWin32
      (List.replicate n (LockObs.present d, now) ++ [(.absent, t)])
      = (true, n + 1)
    ∧ (∀ (d2 : LockData) (now2 : Nat) (rest : List (LockObs × Nat)),
        now2 - d2.timestamp ≤ staleMs → alive d2.pid = true →
        acquireShardLockTrace alive false ((LockObs.present d2, now2) :: rest)
          = (false, 1)) := by
  constructor
  · induction n with
    | zero => rfl
    | succ m ih =>
      rw [List.replicate_succ, List.cons_append]
      simp only [acquireShardLockTrace]
      rw [if_pos hstale, ih]
  · intro d2 now2 rest hfresh halive
    simp only [acquireShardLockTrace]
    rw [if_neg (by omega), if_neg (by simp), if_pos halive]

/-- Witness for C5's amended theorem: two stale collisions then a free
slot give three create attempts and success. -/
theorem c5_amended_witness :
    acquireShardLockTrace (fun _ => true) false
      (List.replicate 2 (LockObs.present ⟨5, 0, "h"⟩, 400000)
        ++ [(.absent, 400002)])
      = (true, 3) :=
  (c5_amended_unbounded_retry (fun _ => true) false ⟨5, 0, "h"⟩ 400000
    400002 2 (by decide)).1

/-- Program points a losing process can be at while the other process
already holds the lock: still about to create, about to read, or done with
a negative answer — never done with a positive one. -/
def racePCSafe (pc : RacePC) : Prop :=
  pc = .tryCreate ∨ pc = .readCheck ∨ pc = .done false

/-- Invariant of the two-process race started on an unclaimed shard id
within the staleness window: either nothing has happened yet, or the lock
file holds a record written by one of the two racing processes (so its
timestamp is at least the window start and its owner is alive) and exactly
that process has returned true, the other being unfinished or done with
false. -/
def raceInv (t0 pidA pidB : Nat) (s : RaceState) : Prop :=
  (s.lock = none ∧ s.pcA = .tryCreate ∧ s.pcB = .tryCreate)
  ∨ (∃ d, s.lock = some d ∧ t0 ≤ d.timestamp ∧ (d.pid = pidA ∨ d.pid = pidB)
      ∧ ((s.pcA = .done true ∧ racePCSafe s.pcB)
        ∨ (s.pcB = .done true ∧ racePCSafe s.pcA)))

/-- One step of either process inside the staleness window preserves the
race invariant. -/
theorem raceInv_step (alive : Nat → Bool) (isWin32 : Bool)
    (pidA pidB : Nat) (host : String) (t0 : Nat)
    (hA : alive pidA = true) (hB : alive pidB = true)
    (s : RaceState) (turn : Bool) (t : Nat)
    (ht : t0 ≤ t ∧ t ≤ t0 + staleMs)
    (hinv : raceInv t0 pidA pidB s) :
    raceInv t0 pidA pidB (raceStep alive isWin32 pidA pidB host s turn t) := by
  have fresh : ∀ d : LockData, t0 ≤ d.timestamp →
      ¬(t - d.timestamp > staleMs) := by
    intro d hd; omega
  have safeStep : ∀ (pid : Nat) (d : LockData), t0 ≤ d.timestamp →
      (d.pid = pidA ∨ d.pid = pidB) → ∀ pc, racePCSafe pc →
      raceProcStep alive isWin32 pid host t (some d) pc = (some d, pc)
      ∨ raceProcStep alive isWin32 pid host t (some d) pc
          = (some d, .readCheck)
      ∨ raceProcStep alive isWin32 pid host t (some d) pc
          = (some d, .done false) := by
    intro pid d hd hpid pc hsafe
    have halive : alive d.pid = true := by
      rcases hpid with h | h <;> rw [h] <;> assumption
    rcases hsafe with h | h | h <;> subst h
    · right; left; rfl
    · right; right
      simp only [raceProcStep]
      rw [if_neg (fresh d hd)]
      cases isWin32 with
      | true => rfl
      | false => simp only [Bool.false_eq_true, if_false, halive, if_true]
    · left; rfl
  rcases hinv with ⟨hl, ha, hb⟩ | ⟨d, hl, hts, hpid, hside⟩
  · right
    cases turn with
    | true =>
      exact ⟨⟨pidA, t, host⟩,
        by simp [raceStep, raceProcStep, hl, ha, hb, racePCSafe, ht.1]⟩
    | false =>
      exact ⟨⟨pidB, t, host⟩,
        by simp [raceStep, raceProcStep, hl, ha, hb, racePCSafe, ht.1]⟩
  · right
    refine ⟨d, ?_⟩
    cases turn with
    | true =>
      rcases hside with ⟨hwin, hsafe⟩ | ⟨hwin, hsafe⟩
      · rcases hsafe with hs | hs | hs <;>
          simp [raceStep, raceProcStep, hl, hwin, hts, hpid, hs, racePCSafe]
      · rcases safeStep pidA d hts hpid s.pcA hsafe with h | h | h <;>
          rcases hsafe with hs | hs | hs <;>
          rw [hs] at h <;>
          simp [raceStep, h, hl, hwin, hts, hpid, hs, racePCSafe]
    | false =>
      rcases hside with ⟨hwin, hsafe⟩ | ⟨hwin, hsafe⟩
      · rcases safeStep pidB d hts hpid s.pcB hsafe with h | h | h <;>
          rcases hsafe with hs | hs | hs <;>
          rw [hs] at h <;>
          simp [raceStep, h, hl, hwin, hts, hpid, hs, racePCSafe]
      · rcases hsafe with hs | hs | hs <;>
          simp [raceStep, raceProcStep, hl, hwin, hts, hpid, hs, racePCSafe]

/-- Any schedule inside the staleness window preserves the race
invariant. -/
theorem raceInv_run (alive : Nat → Bool) (isWin32 : Bool)
    (pidA pidB : Nat) (host : String) (t0 : Nat)
    (hA : alive pidA = true) (hB : alive pidB = true)
    (sched : List (Bool × Nat))
    (hsched : ∀ x ∈ sched, t0 ≤ x.2 ∧ x.2 ≤ t0 + staleMs)
    (s : RaceState) (hinv : raceInv t0 pidA pidB s) :
    raceInv t0 pidA pidB
      (raceRun alive isWin32 pidA pidB host s sched) := by
  induction sched generalizing s with
  | nil => exact hinv
  | cons x rest ih =>
    exact ih (fun y hy => hsched y (List.mem_cons_of_mem x hy)) _
      (raceInv_step alive isWin32 pidA pidB host t0 hA hB s x.1 x.2
        (hsched x (List.mem_cons_self x rest)) hinv)

/-- C2: when two live processes race acquireShardLock on the same
unclaimed shard id, interleaving their atomic filesystem steps in any
order within the 5-minute staleness window, it is never the case that both
are granted the claim, and once both calls have returned exactly one of
them returned true (the claim) while the other returned false (the
conflict). The exclusive create (`flag: 'wx'`) is the serialization point:
the first create wins, the loser finds a fresh lock whose owner is alive
and reports not-claimed. -/
theorem c2_acquireShardLock_mutual_exclusion (alive : Nat → Bool)
    (isWin32 : Bool) (pidA pidB : Nat) (host : String) (t0 : Nat)
    (sched : List (Bool × Nat))
    (hA : alive pidA = true) (hB : alive pidB = true)
    (hsched : ∀ x ∈ sched, t0 ≤ x.2 ∧ x.2 ≤ t0 + staleMs) :
    ¬((raceRun alive isWin32 pidA pidB host raceInit sched).pcA = .done true
      ∧ (raceRun alive isWin32 pidA pidB host raceInit sched).pcB
          = .done true)
    ∧ (∀ ra rb,
        (raceRun alive isWin32 pidA pidB host raceInit sched).pcA = .done ra →
        (raceRun alive isWin32 pidA pidB host raceInit sched).pcB = .done rb →
        (ra = true ∧ rb = false) ∨ (ra = false ∧ rb = true)) := by
  have hinv := raceInv_run alive isWin32 pidA pidB host t0 hA hB sched hsched
    raceInit (Or.inl ⟨rfl, rfl, rfl⟩)
  set f := raceRun alive isWin32 pidA pidB host raceInit sched with hf
  rcases hinv with ⟨_, ha, hb⟩ | ⟨d, _, _, _, hside⟩
  · constructor
    · rintro ⟨h1, _⟩
      rw [ha] at h1
      exact absurd h1 (by simp)
    · intro ra rb h1 _
      rw [ha] at h1
      exact absurd h1 (by simp)
  · rcases hside with ⟨hwin, hsafe⟩ | ⟨hwin, hsafe⟩
    · constructor
      · rintro ⟨_, h2⟩
        rcases hsafe with h | h | h <;> rw [h2] at h <;> simp at h
      · intro ra rb h1 h2
        left
        rw [hwin] at h1
        refine ⟨by injection h1 with h; exact h.symm, ?_⟩
        rcases hsafe with h | h | h <;> rw [h2] at h
        · exact absurd h (by simp)
        · exact absurd h (by simp)
        · injection h with h
    · constructor
      · rintro ⟨h1, _⟩
        rcases hsafe with h | h | h <;> rw [h1] at h <;> simp at h
      · intro ra rb h1 h2
        right
        rw [hwin] at h2
        refine ⟨?_, by injection h2 with h; exact h.symm⟩
        rcases hsafe with h | h | h <;> rw [h1] at h
        · exact absurd h (by simp)
        · exact absurd h (by simp)
        · injection h with h

/-- Witness for C2: process A (pid 1) creates the lock at time 100,
process B (pid 2) collides at 150, reads the fresh lock at 200, finds the
owner alive, and the final states are done-true for A and done-false for
B; in particular both were never done-true. -/
theorem c2_witness :
    ¬((raceRun (fun _ => true) false 1 2 "h" raceInit
        [(true, 100), (false, 150), (false, 200)]).pcA = .done true
      ∧ (raceRun (fun _ => true) false 1 2 "h" raceInit
        [(true, 100), (false, 150), (false, 200)]).pcB = .done true) :=
  (c2_acquireShardLock_mutual_exclusion (fun _ => true) false 1 2 "h" 100
    [(true, 100), (false, 150), (false, 200)] rfl rfl (by decide)).1

/-- An id that already has a status entry keeps it across the
initialization loop of determineNextAvailableShard. -/
theorem initStatuses_of_some (totalShards : Nat)
    (st : Nat → Option ShardStatusRec) (i : Nat) (r : ShardStatusRec)
    (h : st i = some r) : initStatuses totalShards st i = some r := by
  unfold initStatuses
  rw [if_neg (by simp [h])]
  exact h

/-- Soundness of the claim scan: a successful scan returns a listed id
together with its initialized record, and that record was pending or
failed. -/
theorem scanNextShard_sound (alive : Nat → Bool) (isWin32 : Bool)
    (now pid : Nat) (host : String) (locks : Nat → Option LockData)
    (sts : Nat → Option ShardStatusRec) (l : List Nat) (i : Nat)
    (r : ShardStatusRec) (lk : Nat → Option LockData)
    (h : scanNextShard alive isWin32 now pid host locks sts l
      = some (i, r, lk)) :
    i ∈ l ∧ sts i = some r
      ∧ (r.status = .pending ∨ r.status = .failed) := by
  induction l with
  | nil => exact absurd h (by simp [scanNextShard])
  | cons j rest ih =>
    rw [scanNextShard] at h
    split at h
    · rename_i r0 hst
      split at h
      · rename_i hcond
        split at h
        · simp only [Option.some.injEq, Prod.mk.injEq] at h
          obtain ⟨rfl, rfl, rfl⟩ := h
          exact ⟨List.mem_cons_self _ _, hst, hcond⟩
        · obtain ⟨h1, h2, h3⟩ := ih h
          exact ⟨List.mem_cons_of_mem _ h1, h2, h3⟩
      · obtain ⟨h1, h2, h3⟩ := ih h
        exact ⟨List.mem_cons_of_mem _ h1, h2, h3⟩
    · obtain ⟨h1, h2, h3⟩ := ih h
      exact ⟨List.mem_cons_of_mem _ h1, h2, h3⟩

/-- Ids whose initialized status is terminal are skipped by the scan. -/
theorem scanNextShard_skip (alive : Nat → Bool) (isWin32 : Bool)
    (now pid : Nat) (host : String) (locks : Nat → Option LockData)
    (sts : Nat → Option ShardStatusRec) (l1 l2 : List Nat)
    (hskip : ∀ i ∈ l1, ∀ r, sts i = some r →
      ¬(r.status = .pending ∨ r.status = .failed)) :
    scanNextShard alive isWin32 now pid host locks sts (l1 ++ l2)
      = scanNextShard alive isWin32 now pid host locks sts l2 := by
  induction l1 with
  | nil => rfl
  | cons j rest ih =>
    rw [List.cons_append, scanNextShard]
    split
    · rename_i r0 hst
      rw [if_neg (hskip j (List.mem_cons_self _ _) r0 hst)]
      exact ih fun i hi => hskip i (List.mem_cons_of_mem _ hi)
    · exact ih fun i hi => hskip i (List.mem_cons_of_mem _ hi)

/-- No coordinator operation other than a markShardComplete aimed at the
id itself ever changes a completed record, and determineNextAvailableShard
never returns a completed id. -/
theorem coordOp_preserves_completed (alive : Nat → Bool) (isWin32 : Bool)
    (totalShards : Nat) (s : CoordState) (id : Nat) (r : ShardStatusRec)
    (hr : s.statuses id = some r) (hc : r.status = .completed)
    (op : CoordOp) (hop : ∀ i e n, op = .mark i e n → i ≠ id) :
    (applyCoordOp alive isWin32 totalShards s op).1 ≠ some id
    ∧ (applyCoordOp alive isWin32 totalShards s op).2.statuses id
        = some r := by
  cases op with
  | mark i e n =>
    have hne : i ≠ id := hop i e n rfl
    refine ⟨by simp [applyCoordOp], ?_⟩
    show (markShardComplete n s i e).statuses id = some r
    unfold markShardComplete
    split
    · exact hr
    · show (if id = i then _ else s.statuses id) = some r
      rw [if_neg fun he => hne he.symm]
      exact hr
  | next now2 pid2 host2 =>
    show (determineNextAvailableShard alive isWin32 totalShards now2 pid2
        host2 s).1 ≠ some id
      ∧ (determineNextAvailableShard alive isWin32 totalShards now2 pid2
        host2 s).2.statuses id = some r
    simp only [determineNextAvailableShard]
    cases hscan : scanNextShard alive isWin32 now2 pid2 host2 s.locks
        (initStatuses totalShards s.statuses)
        (List.range' 1 totalShards) with
    | none => exact ⟨by simp, hr⟩
    | some t =>
      obtain ⟨i, ri, lk⟩ := t
      obtain ⟨-, hsts, hpf⟩ := scanNextShard_sound alive isWin32 now2 pid2
        host2 s.locks _ _ i ri lk hscan
      have hne : i ≠ id := by
        intro he
        subst he
        rw [initStatuses_of_some totalShards s.statuses i r hr] at hsts
        injection hsts with h
        rw [← h, hc] at hpf
        rcases hpf with h2 | h2 <;> exact absurd h2 (by simp)
      refine ⟨by simp [hne], ?_⟩
      show (if id = i then _ else initStatuses totalShards s.statuses id)
          = some r
      rw [if_neg fun he => hne he.symm]
      exact initStatuses_of_some totalShards s.statuses id r hr

/-- Across any sequence of coordinator operations none of which marks the
id itself, a completed record stays untouched and no
determineNextAvailableShard in the sequence ever returns the id. -/
theorem coordOps_preserve_completed (alive : Nat → Bool) (isWin32 : Bool)
    (totalShards : Nat) (s : CoordState) (id : Nat) (r : ShardStatusRec)
    (hr : s.statuses id = some r) (hc : r.status = .completed)
    (ops : List CoordOp)
    (hops : ∀ op ∈ ops, ∀ i e n, op = .mark i e n → i ≠ id) :
    (applyCoordOps alive isWin32 totalShards s ops).2.statuses id = some r
    ∧ some id ∉ (applyCoordOps alive isWin32 totalShards s ops).1 := by
  induction ops generalizing s with
  | nil => exact ⟨hr, by simp [applyCoordOps]⟩
  | cons op rest ih =>
    obtain ⟨h1, h2⟩ := coordOp_preserves_completed alive isWin32 totalShards
      s id r hr hc op (hops op (List.mem_cons_self _ _))
    obtain ⟨h3, h4⟩ := ih (applyCoordOp alive isWin32 totalShards s op).2 h2
      (fun op2 hmem => hops op2 (List.mem_cons_of_mem _ hmem))
    refine ⟨h3, ?_⟩
    intro hmem
    rcases List.mem_cons.mp hmem with he | hmem2
    · exact h1 he.symm
    · exact h4 hmem2

/-- A pending-or-failed id whose lock file is absent is claimed by the
scan as soon as it is reached. -/
theorem scanNextShard_claims_head (alive : Nat → Bool) (isWin32 : Bool)
    (now pid : Nat) (host : String) (locks : Nat → Option LockData)
    (sts : Nat → Option ShardStatusRec) (i : Nat) (rest : List Nat)
    (r : ShardStatusRec) (hsts : sts i = some r)
    (hpf : r.status = .pending ∨ r.status = .failed)
    (hlk : locks i = none) :
    scanNextShard alive isWin32 now pid host locks sts (i :: rest)
      = some (i, r, fun j => if j = i then some ⟨pid, now, host⟩
          else locks j) := by
  rw [scanNextShard, hsts]
  show (if r.status = .pending ∨ r.status = .failed then _ else _) = _
  rw [if_pos hpf]
  have hacq : acquireShardLockSeq alive isWin32 now pid host locks i
      = (true, fun j => if j = i then some ⟨pid, now, host⟩
          else locks j) := by
    unfold acquireShardLockSeq
    rw [hlk]
  show (if (acquireShardLockSeq alive isWin32 now pid host locks i).1
      then some (i, r,
        (acquireShardLockSeq alive isWin32 now pid host locks i).2)
      else _) = _
  rw [hacq]
  rfl

/-- C4: markShardComplete on an id with a status entry sets the record to
completed exactly when the exit code is 0 and to failed otherwise, records
end time and exit code, deletes the id's lock file, and leaves every other
id's record and lock untouched. A shard marked with a nonzero exit code is
returnable again: the next determineNextAvailableShard claims it (here
stated when every smaller id is already completed, so the ascending scan
reaches it). A shard marked with exit code 0 is never returned by any
later determineNextAvailableShard, across any sequence of coordinator
operations that does not re-mark that same id. -/
theorem c4_markShardComplete_terminal_transitions (alive : Nat → Bool)
    (isWin32 : Bool) (totalShards : Nat) (s : CoordState)
    (shardId exitCode now : Nat) (r : ShardStatusRec)
    (hr : s.statuses shardId = some r) :
    ((markShardComplete now s shardId exitCode).statuses shardId
      = some { r with
          status := if exitCode = 0 then .completed else .failed,
          endTime := some now, exitCode := some exitCode })
    ∧ (markShardComplete now s shardId exitCode).locks shardId = none
    ∧ (∀ j, j ≠ shardId →
        (markShardComplete now s shardId exitCode).statuses j
          = s.statuses j
        ∧ (markShardComplete now s shardId exitCode).locks j = s.locks j)
    ∧ (exitCode ≠ 0 → 1 ≤ shardId → shardId ≤ totalShards →
        (∀ j, 1 ≤ j → j < shardId → ∃ rj, s.statuses j = some rj
          ∧ rj.status = .completed) →
        ∀ now2 pid2 host2,
          (determineNextAvailableShard alive isWin32 totalShards now2 pid2
            host2 (markShardComplete now s shardId exitCode)).1
            = some shardId)
    ∧ (exitCode = 0 →
        ∀ ops : List CoordOp,
          (∀ op ∈ ops, ∀ i e n, op = .mark i e n → i ≠ shardId) →
          (applyCoordOps alive isWin32 totalShards
              (markShardComplete now s shardId exitCode) ops).2.statuses
              shardId
            = some { r with
                status := .completed, endTime := some now,
                exitCode := some exitCode }
          ∧ some shardId ∉ (applyCoordOps alive isWin32 totalShards
              (markShardComplete now s shardId exitCode) ops).1) := by
  have hset : (markShardComplete now s shardId exitCode).statuses shardId
      = some { r with
          status := if exitCode = 0 then .completed else .failed,
          endTime := some now, exitCode := some exitCode } := by
    unfold markShardComplete
    rw [hr]
    show (if shardId = shardId then _ else s.statuses shardId) = _
    rw [if_pos rfl]
  have hlock : (markShardComplete now s shardId exitCode).locks shardId
      = none := by
    unfold markShardComplete
    rw [hr]
    show releaseShardLock s.locks shardId shardId = none
    unfold releaseShardLock
    rw [if_pos rfl]
  have hframe : ∀ j, j ≠ shardId →
      (markShardComplete now s shardId exitCode).statuses j = s.statuses j
      ∧ (markShardComplete now s shardId exitCode).locks j = s.locks j := by
    intro j hj
    unfold markShardComplete
    rw [hr]
    constructor
    · show (if j = shardId then _ else s.statuses j) = s.statuses j
      rw [if_neg hj]
    · show releaseShardLock s.locks shardId j = s.locks j
      unfold releaseShardLock
      rw [if_neg hj]
  refine ⟨hset, hlock, hframe, ?_, ?_⟩
  · intro hnz h1 h2 hprev now2 pid2 host2
    have hsetf : (markShardComplete now s shardId exitCode).statuses shardId
        = some { r with
            status := .failed, endTime := some now,
            exitCode := some exitCode } := by
      rw [hset, if_neg hnz]
    have hskip : ∀ i ∈ List.range' 1 (shardId - 1), ∀ ri,
        initStatuses totalShards
          (markShardComplete now s shardId exitCode).statuses i = some ri →
        ¬(ri.status = .pending ∨ ri.status = .failed) := by
      intro i hi ri hri
      rw [List.mem_range'_1] at hi
      have hij : i ≠ shardId := by omega
      obtain ⟨rj, hrj, hrjc⟩ := hprev i (by omega) (by omega)
      rw [initStatuses_of_some totalShards _ i rj
        (by rw [(hframe i hij).1]; exact hrj)] at hri
      injection hri with h
      subst h
      rw [hrjc]
      simp
    have hsplit : List.range' 1 totalShards
        = List.range' 1 (shardId - 1)
          ++ List.range' shardId (totalShards - shardId + 1) := by
      have hx := List.range'_append 1 (shardId - 1)
        (totalShards - shardId + 1) 1
      simp only [one_mul] at hx
      rw [show 1 + (shardId - 1) = shardId by omega] at hx
      rw [show totalShards - shardId + 1 + (shardId - 1) = totalShards
        by omega] at hx
      exact hx.symm
    have hscan : scanNextShard alive isWin32 now2 pid2 host2
        (markShardComplete now s shardId exitCode).locks
        (initStatuses totalShards
          (markShardComplete now s shardId exitCode).statuses)
        (List.range' 1 totalShards)
        = some (shardId,
            { r with
              status := .failed, endTime := some now,
              exitCode := some exitCode },
            fun j => if j = shardId then some ⟨pid2, now2, host2⟩
              else (markShardComplete now s shardId exitCode).locks j) := by
      rw [hsplit, scanNextShard_skip _ _ _ _ _ _ _ _ _ hskip]
      rw [show totalShards - shardId + 1 = (totalShards - shardId) + 1
        from rfl]
      rw [List.range'_succ]
      exact scanNextShard_claims_head alive isWin32 now2 pid2 host2 _ _
        shardId _ _ (initStatuses_of_some _ _ _ _ hsetf) (Or.inr rfl) hlock
    simp only [determineNextAvailableShard, hscan]
  · intro hz ops hops
    have hsetc := hset
    rw [if_pos hz] at hsetc
    exact coordOps_preserve_completed alive isWin32 totalShards _ shardId _
      hsetc rfl ops hops

/-- Witness for C4: a state where shard 1 is running and locked; marking
it complete with exit code 7 records the failure and releases the lock. -/
theorem c4_witness :
    (markShardComplete 50
        { statuses := fun j =>
            if j = 1 then some ⟨1, .running, some 9, some 10, none, none⟩
            else none,
          locks := fun j => if j = 1 then some ⟨9, 10, "h"⟩ else none }
        1 7).statuses 1
      = some ⟨1, .failed, some 9, some 10, some 50, some 7⟩
    ∧ (markShardComplete 50
        { statuses := fun j =>
            if j = 1 then some ⟨1, .running, some 9, some 10, none, none⟩
            else none,
          locks := fun j => if j = 1 then some ⟨9, 10, "h"⟩ else none }
        1 7).locks 1 = none :=
  ⟨(c4_markShardComplete_terminal_transitions (fun _ => true) false 3 _ 1 7
      50 _ rfl).1,
   (c4_markShardComplete_terminal_transitions (fun _ => true) false 3 _ 1 7
      50 _ rfl).2.1⟩

/-- C8 counterexample: the claim says no record ever moves from pending
directly to a terminal status. Starting from an empty coordination
directory with 2 shards, one determineNextAvailableShard claims shard 1
and persists shard 2 as pending; a markShardComplete(2, 0) then moves
shard 2 directly from pending to completed — the coordinator never guards
markShardComplete by the current status. -/
theorem c8_counterexample :
    ((determineNextAvailableShard (fun _ => true) false 2 100 50 "h"
        CoordState.empty).2.statuses 2).map ShardStatusRec.status
      = some .pending
    ∧ ((markShardComplete 200
        (determineNextAvailableShard (fun _ => true) false 2 100 50 "h"
          CoordState.empty).2 2 0).statuses 2).map ShardStatusRec.status
      = some .completed := by
  exact ⟨rfl, rfl⟩

/-- C8 amended: determineNextAvailableShard changes a record's status only
from pending or failed to running (and in particular never touches a
running or terminal record, so no record moves running to running through
a re-claim), while markShardComplete moves a record with any prior status
to completed (exit code 0) or failed (nonzero) — so besides
running→completed/failed and failed→running, the direct transitions
pending→completed, pending→failed, completed→failed and failed→completed
are also reachable. -/
theorem c8_amended_status_transitions (alive : Nat → Bool) (isWin32 : Bool)
    (totalShards now pid : Nat) (host : String) (s : CoordState)
    (shardId exitCode : Nat) :
    (∀ j r r2, s.statuses j = some r →
      (determineNextAvailableShard alive isWin32 totalShards now pid host
        s).2.statuses j = some r2 →
      r2 = r ∨ ((r.status = .pending ∨ r.status = .failed)
        ∧ r2 = { r with
            status := .running, pid := some pid,
            startTime := some now }))
    ∧ (∀ r, s.statuses shardId = some r →
        (markShardComplete now s shardId exitCode).statuses shardId
          = some { r with
              status := if exitCode = 0 then .completed else .failed,
              endTime := some now, exitCode := some exitCode })
    ∧ (∀ j r r2, s.statuses j = some r → r.status = .running →
        (determineNextAvailableShard alive isWin32 totalShards now pid host
          s).2.statuses j = some r2 → r2 = r) := by
  have hnext : ∀ j r r2, s.statuses j = some r →
      (determineNextAvailableShard alive isWin32 totalShards now pid host
        s).2.statuses j = some r2 →
      r2 = r ∨ ((r.status = .pending ∨ r.status = .failed)
        ∧ r2 = { r with
            status := .running, pid := some pid,
            startTime := some now }) := by
    intro j r r2 hr h2
    rw [determineNextAvailableShard] at h2
    cases hscan : scanNextShard alive isWin32 now pid host s.locks
        (initStatuses totalShards s.statuses)
        (List.range' 1 totalShards) with
    | none =>
      rw [hscan] at h2
      left
      rw [hr] at h2
      injection h2 with h2
      exact h2.symm
    | some t =>
      obtain ⟨i, ri, lk⟩ := t
      obtain ⟨-, hsts, hpf⟩ := scanNextShard_sound alive isWin32 now pid
        host s.locks _ _ i ri lk hscan
      rw [hscan] at h2
      by_cases hji : j = i
      · subst hji
        rw [initStatuses_of_some totalShards s.statuses j r hr] at hsts
        injection hsts with hsts
        subst hsts
        right
        refine ⟨hpf, ?_⟩
        have h3 : (if j = j then
            some { r with
              status := ShardLifecycle.running, pid := some pid,
              startTime := some now }
            else initStatuses totalShards s.statuses j) = some r2 := h2
        rw [if_pos rfl] at h3
        injection h3 with h3
        exact h3.symm
      · left
        have h3 : (if j = i then
            some { ri with
              status := ShardLifecycle.running, pid := some pid,
              startTime := some now }
            else initStatuses totalShards s.statuses j) = some r2 := h2
        rw [if_neg hji,
          initStatuses_of_some totalShards s.statuses j r hr] at h3
        injection h3 with h3
        exact h3.symm
  refine ⟨hnext, ?_, ?_⟩
  · intro r hr
    unfold markShardComplete
    rw [hr]
    show (if shardId = shardId then _ else s.statuses shardId) = _
    rw [if_pos rfl]
  · intro j r r2 hr hrun h2
    rcases hnext j r r2 hr h2 with h | ⟨hpf, -⟩
    · exact h
    · rw [hrun] at hpf
      rcases hpf with h | h <;> exact absurd h (by simp)

/-- Witness for C8's amended theorem: in the concrete pending→completed
run of the counterexample state, the claim step taken by
determineNextAvailableShard moves shard 1 from pending to running. -/
theorem c8_amended_witness :
    (determineNextAvailableShard (fun _ => true) false 2 100 50 "h"
        { statuses := fun j =>
            if j = 1 then some ⟨1, .pending, none, none, none, none⟩
            else none,
          locks := fun _ => none }).2.statuses 1
      = some ⟨1, .running, some 50, some 100, none, none⟩ ∨
    (determineNextAvailableShard (fun _ => true) false 2 100 50 "h"
        { statuses := fun j =>
            if j = 1 then some ⟨1, .pending, none, none, none, none⟩
            else none,
          locks := fun _ => none }).2.statuses 1
      = some ⟨1, .pending, none, none, none, none⟩ := by
  rcases (c8_amended_status_transitions (fun _ => true) false 2 100 50 "h"
      { statuses := fun j =>
          if j = 1 then some ⟨1, .pending, none, none, none, none⟩
          else none,
        locks := fun _ => none } 1 0).1 1
      ⟨1, .pending, none, none, none, none⟩
      ⟨1, .running, some 50, some 100, none, none⟩ rfl rfl with h | ⟨-, -⟩
  · exact Or.inr (by rw [← h]; rfl)
  · exact Or.inl rfl

/-- C9: the hash-based strategy is a pure function of the identifier's
content hash, the index and the total: repeated invocation on identical
input gives the identical subset, membership of a path depends only on
that path's own hash (so the same test lands on the same shard index no
matter what the rest of the list is, across machines and runs computing
the same md5), and for a path in the list there is exactly one shard
index in [1, total] whose subset contains it. -/
theorem c9_hash_strategy_deterministic (hash : String → Nat)
    (tests tests2 : List String) (index : Int) (total : Nat) (p : String)
    (htot : 1 ≤ total) :
    HashBasedStrategy.distributeTests hash tests ⟨index, total⟩
      = HashBasedStrategy.distributeTests hash tests ⟨index, total⟩
    ∧ (p ∈ HashBasedStrategy.distributeTests hash tests ⟨index, total⟩
        ↔ p ∈ tests ∧ ((hash p % total : Nat) : Int) = index - 1)
    ∧ (p ∈ tests → p ∈ tests2 →
        (p ∈ HashBasedStrategy.distributeTests hash tests ⟨index, total⟩
          ↔ p ∈ HashBasedStrategy.distributeTests hash tests2
              ⟨index, total⟩))
    ∧ (p ∈ tests → ∃! k : Nat, 1 ≤ k ∧ k ≤ total
        ∧ p ∈ HashBasedStrategy.distributeTests hash tests
            ⟨(k : Int), total⟩) := by
  have htot0 : total ≠ 0 := by omega
  have hmem : ∀ (l : List String) (ix : Int) (q : String),
      q ∈ HashBasedStrategy.distributeTests hash l ⟨ix, total⟩
        ↔ q ∈ l ∧ ((hash q % total : Nat) : Int) = ix - 1 := by
    intro l ix q
    unfold HashBasedStrategy.distributeTests
    rw [if_neg htot0]
    simp [List.mem_filter]
  have hlt : hash p % total < total := Nat.mod_lt _ (by omega)
  refine ⟨rfl, hmem tests index p, ?_, ?_⟩
  · intro hp1 hp2
    rw [hmem tests index p, hmem tests2 index p]
    constructor
    · rintro ⟨-, h⟩; exact ⟨hp2, h⟩
    · rintro ⟨-, h⟩; exact ⟨hp1, h⟩
  · intro hp
    refine ⟨hash p % total + 1, ⟨by omega, by omega, ?_⟩, ?_⟩
    · rw [hmem tests _ p]
      refine ⟨hp, ?_⟩
      push_cast
      omega
    · intro k hk
      obtain ⟨hk1, hk2, hk3⟩ := hk
      rw [hmem tests _ p] at hk3
      obtain ⟨-, hk3⟩ := hk3
      omega

/-- Witness for C9: with an all-zero hash and a two-shard split, test "a"
lands on exactly one shard index of [1, 2]. -/
theorem c9_witness :
    ∃! k : Nat, 1 ≤ k ∧ k ≤ 2
      ∧ "a" ∈ HashBasedStrategy.distributeTests (fun _ => 0) ["a"]
          ⟨(k : Int), 2⟩ :=
  (c9_hash_strategy_deterministic (fun _ => 0) ["a"] ["a"] 1 2 "a"
    (by decide)).2.2.2 (by decide)

/-! Permutation infrastructure for the partition claim C1 and the balance
claim C6: the stable descending sort permutes its input, the greedy
assignment moves every item into exactly one shard, and a union of
filters over all residues permutes the filtered list. -/

theorem insertByCostDesc_perm (x : String × Nat) (l : List (String × Nat)) :
    (insertByCostDesc x l).Perm (x :: l) := by
  induction l with
  | nil => exact List.Perm.refl _
  | cons y ys ih =>
    unfold insertByCostDesc
    split
    · exact List.Perm.refl _
    · exact (ih.cons y).trans (List.Perm.swap x y ys)

theorem sortByCostDesc_perm (l : List (String × Nat)) :
    (sortByCostDesc l).Perm l := by
  induction l with
  | nil => exact List.Perm.refl _
  | cons x xs ih =>
    exact (insertByCostDesc_perm x (sortByCostDesc xs)).trans (ih.cons x)

theorem count_flatMap {α β : Type} [DecidableEq β] (l : List α)
    (f : α → List β) (b : β) :
    ((l.flatMap f).count b) = (l.map fun a => (f a).count b).sum := by
  induction l with
  | nil => rfl
  | cons x xs ih => simp [List.flatMap_cons, List.count_append, ih]

theorem count_filter_eq {α : Type} [DecidableEq α] (l : List α)
    (p : α → Bool) (a : α) :
    ((l.filter p).count a) = if p a = true then l.count a else 0 := by
  by_cases h : p a = true
  · rw [if_pos h, List.count_filter h]
  · rw [if_neg h, List.count_eq_zero]
    intro hmem
    rw [List.mem_filter] at hmem
    exact h hmem.2

theorem sum_if_range (n k c : Nat) :
    ((List.range n).map fun r => if k = r then c else 0).sum
      = if k < n then c else 0 := by
  induction n with
  | zero => simp
  | succ m ih =>
    rw [List.range_succ, List.map_append, List.sum_append, ih]
    simp only [List.map_cons, List.map_nil, List.sum_cons, List.sum_nil]
    by_cases h1 : k = m
    · subst h1
      rw [if_neg (lt_irrefl k), if_pos rfl, if_pos (Nat.lt_succ_self k)]
      simp
    · rw [if_neg h1]
      by_cases h2 : k < m
      · rw [if_pos h2, if_pos (by omega)]
        simp
      · rw [if_neg h2, if_neg (by omega)]
        simp

/-- Filtering a list by each possible value of a key bounded by `total`
and concatenating the pieces permutes the list: every element lands in
exactly the piece of its own key. -/
theorem flatMap_filter_key_perm {α : Type} [DecidableEq α] (l : List α)
    (key : α → Nat) (total : Nat) (h : ∀ x ∈ l, key x < total) :
    (((List.range total).flatMap fun r =>
      l.filter fun x => key x = r)).Perm l := by
  rw [List.perm_iff_count]
  intro a
  rw [count_flatMap]
  have hcf : ∀ r : Nat, ((l.filter fun x => decide (key x = r)).count a)
      = if key a = r then l.count a else 0 := by
    intro r
    rw [count_filter_eq]
    by_cases hk : key a = r
    · rw [if_pos (by simp [hk]), if_pos hk]
    · rw [if_neg (by simp [hk]), if_neg hk]
  simp only [hcf]
  rw [sum_if_range]
  by_cases ha : a ∈ l
  · rw [if_pos (h a ha)]
  · simp [List.count_eq_zero_of_not_mem ha]

theorem length_greedyAssign (shards : List Shard) (item : String × Nat) :
    (greedyAssign shards item).length = shards.length := by
  unfold greedyAssign
  exact List.length_set shards _ _

theorem length_foldl_greedyAssign (items : List (String × Nat))
    (shards : List Shard) :
    (items.foldl greedyAssign shards).length = shards.length := by
  induction items generalizing shards with
  | nil => rfl
  | cons it its ih => rw [List.foldl_cons, ih, length_greedyAssign]

theorem minShardIdx_lt (shards : List Shard) (h : 0 < shards.length) :
    minShardIdx shards < shards.length := by
  unfold minShardIdx
  have haux : ∀ (l : List (Nat × Shard)) (acc : Nat),
      acc < shards.length → (∀ e ∈ l, e.1 < shards.length) →
      (l.foldl (fun m e =>
        if e.2.2 < (shards.getD m ([], 0)).2 then e.1 else m) acc)
        < shards.length := by
    intro l
    induction l with
    | nil => intro acc hacc _; exact hacc
    | cons e es ih =>
      intro acc hacc hl
      rw [List.foldl_cons]
      apply ih
      · split
        · exact hl e (List.mem_cons_self _ _)
        · exact hacc
      · intro e2 he2
        exact hl e2 (List.mem_cons_of_mem _ he2)
  apply haux _ 0 h
  intro e he
  rw [List.mem_enum_iff_getElem?] at he
  exact (List.getElem?_eq_some.mp he).1

theorem minShardIdx_pair (a b : Shard) :
    minShardIdx [a, b] = if b.2 < a.2 then 1 else 0 := by
  show List.foldl (fun m e =>
      if e.2.2 < ([a, b].getD m ([], 0)).2 then e.1 else m) 0
      [(0, a), (1, b)] = _
  rw [List.foldl_cons, List.foldl_cons, List.foldl_nil, ite_self]
  rfl

/-- Paths collected over all shards of the greedy accumulator. -/
def joinPaths (shards : List Shard) : List String :=
  shards.flatMap Prod.fst

theorem joinPaths_set (shards : List Shard) (m : Nat) (x : String) (c : Nat)
    (hm : m < shards.length) :
    (joinPaths (shards.set m ((shards.getD m ([], 0)).1 ++ [x], c))).Perm
      (joinPaths shards ++ [x]) := by
  induction shards generalizing m with
  | nil => simp at hm
  | cons s ss ih =>
    cases m with
    | zero =>
      show ((s.1 ++ [x]) ++ joinPaths ss).Perm ((s.1 ++ joinPaths ss) ++ [x])
      calc (s.1 ++ [x]) ++ joinPaths ss
          = s.1 ++ ([x] ++ joinPaths ss) := List.append_assoc _ _ _
        _ ~ s.1 ++ (joinPaths ss ++ [x]) :=
            List.Perm.append_left s.1 List.perm_append_comm
        _ = (s.1 ++ joinPaths ss) ++ [x] := (List.append_assoc _ _ _).symm
    | succ m2 =>
      show (s.1 ++ joinPaths (ss.set m2 _)).Perm
        ((s.1 ++ joinPaths ss) ++ [x])
      calc s.1 ++ joinPaths (ss.set m2 ((ss.getD m2 ([], 0)).1 ++ [x], c))
          ~ s.1 ++ (joinPaths ss ++ [x]) :=
            List.Perm.append_left s.1 (ih m2 (by simpa using hm))
        _ = (s.1 ++ joinPaths ss) ++ [x] := (List.append_assoc _ _ _).symm

theorem joinPaths_greedyAssign (shards : List Shard) (item : String × Nat)
    (h : 0 < shards.length) :
    (joinPaths (greedyAssign shards item)).Perm
      (joinPaths shards ++ [item.1]) := by
  unfold greedyAssign
  exact joinPaths_set shards (minShardIdx shards) item.1 _
    (minShardIdx_lt shards h)

theorem joinPaths_foldl (items : List (String × Nat)) (shards : List Shard)
    (h : 0 < shards.length) :
    (joinPaths (items.foldl greedyAssign shards)).Perm
      (joinPaths shards ++ items.map Prod.fst) := by
  induction items generalizing shards with
  | nil => simp [List.Perm.refl]
  | cons it its ih =>
    rw [List.foldl_cons]
    have h1 : 0 < (greedyAssign shards it).length := by
      rw [length_greedyAssign]; exact h
    calc joinPaths (its.foldl greedyAssign (greedyAssign shards it))
        ~ joinPaths (greedyAssign shards it) ++ its.map Prod.fst := ih _ h1
      _ ~ (joinPaths shards ++ [it.1]) ++ its.map Prod.fst :=
          (joinPaths_greedyAssign shards it h).append_right _
      _ = joinPaths shards ++ (it.1 :: its.map Prod.fst) := by
          rw [List.append_assoc]; rfl

theorem flatMap_range_getD (shards : List Shard) :
    ((List.range shards.length).flatMap fun k => (shards.getD k ([], 0)).1)
      = joinPaths shards := by
  induction shards with
  | nil => rfl
  | cons s ss ih =>
    rw [show (s :: ss).length = ss.length + 1 from rfl,
      List.range_succ_eq_map, List.flatMap_cons]
    congr 1
    rw [List.flatMap_map]
    exact ih

theorem flatMap_congr_mem {α β : Type} (l : List α) (f g : α → List β)
    (h : ∀ a ∈ l, f a = g a) : l.flatMap f = l.flatMap g := by
  induction l with
  | nil => rfl
  | cons x xs ih =>
    rw [List.flatMap_cons, List.flatMap_cons, h x (List.mem_cons_self _ _),
      ih fun a ha => h a (List.mem_cons_of_mem _ ha)]

theorem sum_le_of_two_mem {α : Type} (l : List α) (f : α → Nat) (a b : α)
    (ha : a ∈ l) (hb : b ∈ l) (hab : a ≠ b) :
    f a + f b ≤ (l.map f).sum := by
  induction l with
  | nil => simp at ha
  | cons x xs ih =>
    rw [List.map_cons, List.sum_cons]
    rcases List.mem_cons.mp ha with rfl | ha2
    · have hb2 : b ∈ xs := by
        rcases List.mem_cons.mp hb with h | h
        · exact absurd h.symm hab
        · exact h
      have hble : f b ≤ (xs.map f).sum :=
        List.single_le_sum (fun y _ => Nat.zero_le y) _
          (List.mem_map_of_mem f hb2)
      omega
    · rcases List.mem_cons.mp hb with rfl | hb2
      · have hale : f a ≤ (xs.map f).sum :=
          List.single_le_sum (fun y _ => Nat.zero_le y) _
            (List.mem_map_of_mem f ha2)
        omega
      · have := ih ha2 hb2
        omega

/-- The round-robin outputs over indices 1..total concatenate to a
permutation of the input list. -/
theorem roundRobin_union_perm (tests : List String) (total : Nat)
    (htot : 1 ≤ total) :
    (((List.range total).flatMap fun k =>
      RoundRobinStrategy.distributeTests tests ⟨(k : Int) + 1, total⟩)).Perm
      tests := by
  have htot0 : total ≠ 0 := by omega
  have hfun : ∀ k : Nat,
      RoundRobinStrategy.distributeTests tests ⟨(k : Int) + 1, total⟩
        = (tests.enum.filter fun e => e.1 % total = k).map Prod.snd := by
    intro k
    unfold RoundRobinStrategy.distributeTests
    rw [if_neg htot0]
    congr 1
    apply List.filter_congr
    intro e _
    simp only [decide_eq_decide]
    rw [show (k : Int) + 1 - 1 = (k : Int) by ring, ← Int.natCast_mod,
      Nat.cast_inj]
  calc ((List.range total).flatMap fun k =>
        RoundRobinStrategy.distributeTests tests ⟨(k : Int) + 1, total⟩)
      = (List.range total).flatMap fun k =>
          (tests.enum.filter fun e => e.1 % total = k).map Prod.snd :=
        flatMap_congr_mem _ _ _ fun k _ => hfun k
    _ = ((List.range total).flatMap fun k =>
          tests.enum.filter fun e => e.1 % total = k).map Prod.snd := by
        rw [← List.map_flatMap]
    _ ~ tests.enum.map Prod.snd := by
        apply List.Perm.map
        exact flatMap_filter_key_perm tests.enum (fun e => e.1 % total)
          total (fun e _ => Nat.mod_lt _ (by omega))
    _ = tests := List.enum_map_snd tests

/-- The hash-based outputs over indices 1..total concatenate to a
permutation of the input list. -/
theorem hashBased_union_perm (hash : String → Nat) (tests : List String)
    (total : Nat) (htot : 1 ≤ total) :
    (((List.range total).flatMap fun k =>
      HashBasedStrategy.distributeTests hash tests
        ⟨(k : Int) + 1, total⟩)).Perm tests := by
  have htot0 : total ≠ 0 := by omega
  have hfun : ∀ k : Nat,
      HashBasedStrategy.distributeTests hash tests ⟨(k : Int) + 1, total⟩
        = tests.filter fun p => hash p % total = k := by
    intro k
    unfold HashBasedStrategy.distributeTests
    rw [if_neg htot0]
    apply List.filter_congr
    intro p _
    simp only [decide_eq_decide]
    rw [show (k : Int) + 1 - 1 = (k : Int) by ring, Nat.cast_inj]
  rw [flatMap_congr_mem _ _ _ fun k _ => hfun k]
  exact flatMap_filter_key_perm tests (fun p => hash p % total) total
    (fun p _ => Nat.mod_lt _ (by omega))

theorem joinPaths_replicate (n : Nat) :
    joinPaths (List.replicate n (([], 0) : Shard)) = [] := by
  induction n with
  | zero => rfl
  | succ m ih =>
    rw [List.replicate_succ]
    show ([] : List String) ++ joinPaths (List.replicate m ([], 0)) = []
    rw [List.nil_append, ih]

/-- On an index 1..total (written k + 1 for k < total) the greedy balancer
returns the k-th accumulated shard. -/
theorem lpt_some (cost : String → Nat) (tests : List String) (total k : Nat)
    (hk : k < total) :
    lptDistribute cost tests ⟨(k : Int) + 1, total⟩
      = some ((((sortByCostDesc (tests.map fun p => (p, cost p))).foldl
          greedyAssign (List.replicate total ([], 0))).getD k ([], 0)).1) := by
  unfold lptDistribute
  dsimp only
  rw [if_pos (by constructor <;> omega)]
  rw [show ((k : Int) + 1 - 1).toNat = k by simp]

/-- The greedy-balancer outputs over indices 1..total concatenate to a
permutation of the input list (both cost sources). -/
theorem lpt_union_perm (cost : String → Nat) (tests : List String)
    (total : Nat) (htot : 1 ≤ total) :
    (((List.range total).flatMap fun k =>
      (lptDistribute cost tests ⟨(k : Int) + 1, total⟩).getD [])).Perm
      tests := by
  have hlen : ((sortByCostDesc (tests.map fun p => (p, cost p))).foldl
      greedyAssign (List.replicate total ([], 0))).length = total := by
    rw [length_foldl_greedyAssign, List.length_replicate]
  have hjoin := flatMap_range_getD ((sortByCostDesc
    (tests.map fun p => (p, cost p))).foldl greedyAssign
    (List.replicate total ([], 0)))
  rw [hlen] at hjoin
  calc ((List.range total).flatMap fun k =>
        (lptDistribute cost tests ⟨(k : Int) + 1, total⟩).getD [])
      = (List.range total).flatMap fun k =>
          ((((sortByCostDesc (tests.map fun p => (p, cost p))).foldl
            greedyAssign (List.replicate total ([], 0))).getD
            k ([], 0)).1) := by
        apply flatMap_congr_mem
        intro k hk
        rw [lpt_some cost tests total k (List.mem_range.mp hk)]
        rfl
    _ = joinPaths ((sortByCostDesc (tests.map fun p => (p, cost p))).foldl
          greedyAssign (List.replicate total ([], 0))) := hjoin
    _ ~ joinPaths (List.replicate total (([], 0) : Shard))
          ++ (sortByCostDesc (tests.map fun p => (p, cost p))).map
            Prod.fst :=
        joinPaths_foldl _ _ (by rw [List.length_replicate]; omega)
    _ = (sortByCostDesc (tests.map fun p => (p, cost p))).map Prod.fst := by
        rw [joinPaths_replicate, List.nil_append]
    _ ~ (tests.map fun p => (p, cost p)).map Prod.fst :=
        List.Perm.map _ (sortByCostDesc_perm _)
    _ = tests := by
        rw [List.map_map,
          show (Prod.fst ∘ fun p : String => (p, cost p)) = id from rfl,
          List.map_id]

/-- C1: for every strategy and every total ≥ 1, running distributeTests
once per index 1..total partitions the input: the concatenation of the
outputs is a permutation of the input list (no test duplicated or lost,
each in exactly one shard, for the greedy strategies additionally every
in-range call returns a value), and on a duplicate-free input the subsets
are pairwise disjoint. -/
theorem c1_strategies_partition (hash sizeOf : String → Nat)
    (history : String → Option Nat) (tests : List String) (total : Nat)
    (htot : 1 ≤ total) :
    (((List.range total).flatMap fun k =>
        RoundRobinStrategy.distributeTests tests ⟨(k : Int) + 1, total⟩)).Perm
      tests
    ∧ (((List.range total).flatMap fun k =>
        HashBasedStrategy.distributeTests hash tests
          ⟨(k : Int) + 1, total⟩)).Perm tests
    ∧ (∀ k, k < total →
        (FileSizeStrategy.distributeTests sizeOf tests
          ⟨(k : Int) + 1, total⟩).isSome = true
        ∧ (SmartStrategy.distributeTests history tests
          ⟨(k : Int) + 1, total⟩).isSome = true)
    ∧ (((List.range total).flatMap fun k =>
        (FileSizeStrategy.distributeTests sizeOf tests
          ⟨(k : Int) + 1, total⟩).getD [])).Perm tests
    ∧ (((List.range total).flatMap fun k =>
        (SmartStrategy.distributeTests history tests
          ⟨(k : Int) + 1, total⟩).getD [])).Perm tests
    ∧ (tests.Nodup → ∀ i j : Nat, 1 ≤ i → i ≤ total → 1 ≤ j → j ≤ total →
        i ≠ j → ∀ p : String,
        (p ∈ RoundRobinStrategy.distributeTests tests ⟨(i : Int), total⟩ →
          p ∉ RoundRobinStrategy.distributeTests tests ⟨(j : Int), total⟩)
        ∧ (p ∈ HashBasedStrategy.distributeTests hash tests
            ⟨(i : Int), total⟩ →
          p ∉ HashBasedStrategy.distributeTests hash tests
            ⟨(j : Int), total⟩)
        ∧ (p ∈ (FileSizeStrategy.distributeTests sizeOf tests
            ⟨(i : Int), total⟩).getD [] →
          p ∉ (FileSizeStrategy.distributeTests sizeOf tests
            ⟨(j : Int), total⟩).getD [])
        ∧ (p ∈ (SmartStrategy.distributeTests history tests
            ⟨(i : Int), total⟩).getD [] →
          p ∉ (SmartStrategy.distributeTests history tests
            ⟨(j : Int), total⟩).getD [])) := by
  have hrr := roundRobin_union_perm tests total htot
  have hhash := hashBased_union_perm hash tests total htot
  have hfs := lpt_union_perm sizeOf tests total htot
  have hsm := lpt_union_perm (SmartStrategy.duration history) tests total
    htot
  have hdisj : ∀ out : Nat → List String,
      (((List.range total).flatMap fun k => out (k + 1))).Perm tests →
      tests.Nodup → ∀ i j : Nat, 1 ≤ i → i ≤ total → 1 ≤ j → j ≤ total →
      i ≠ j → ∀ p : String, p ∈ out i → p ∉ out j := by
    intro out hperm hnodup i j hi1 hi2 hj1 hj2 hij p hpi hpj
    have hcount : tests.count p ≤ 1 :=
      List.nodup_iff_count_le_one.mp hnodup p
    have heq := (List.perm_iff_count.mp hperm) p
    rw [count_flatMap] at heq
    have hle := sum_le_of_two_mem (List.range total)
      (fun k => (out (k + 1)).count p) (i - 1) (j - 1)
      (List.mem_range.mpr (by omega)) (List.mem_range.mpr (by omega))
      (by omega)
    simp only [] at hle
    rw [show i - 1 + 1 = i by omega, show j - 1 + 1 = j by omega] at hle
    have hpi2 : 0 < (out i).count p := List.count_pos_iff.mpr hpi
    have hpj2 : 0 < (out j).count p := List.count_pos_iff.mpr hpj
    omega
  refine ⟨hrr, hhash, ?_, hfs, hsm, ?_⟩
  · intro k hk
    constructor
    · show (lptDistribute sizeOf tests ⟨(k : Int) + 1, total⟩).isSome = true
      rw [lpt_some sizeOf tests total k hk]
      rfl
    · show (lptDistribute (SmartStrategy.duration history) tests
        ⟨(k : Int) + 1, total⟩).isSome = true
      rw [lpt_some (SmartStrategy.duration history) tests total k hk]
      rfl
  · intro hnodup i j hi1 hi2 hj1 hj2 hij p
    refine ⟨?_, ?_, ?_, ?_⟩
    · exact hdisj (fun n => RoundRobinStrategy.distributeTests tests
        ⟨(n : Int), total⟩) hrr hnodup i j hi1 hi2 hj1 hj2 hij p
    · exact hdisj (fun n => HashBasedStrategy.distributeTests hash tests
        ⟨(n : Int), total⟩) hhash hnodup i j hi1 hi2 hj1 hj2 hij p
    · exact hdisj (fun n => (FileSizeStrategy.distributeTests sizeOf tests
        ⟨(n : Int), total⟩).getD []) hfs hnodup i j hi1 hi2 hj1 hj2 hij p
    · exact hdisj (fun n => (SmartStrategy.distributeTests history tests
        ⟨(n : Int), total⟩).getD []) hsm hnodup i j hi1 hi2 hj1 hj2 hij p

/-- Witness for C1: round-robin over 2 shards reassembles ["a","b","c"]. -/
theorem c1_witness :
    (((List.range 2).flatMap fun k =>
      RoundRobinStrategy.distributeTests ["a", "b", "c"]
        ⟨(k : Int) + 1, 2⟩)).Perm ["a", "b", "c"] :=
  (c1_strategies_partition (fun _ => 0) (fun _ => 0) (fun _ => none)
    ["a", "b", "c"] 2 (by decide)).1

/-- Total cost of a list of paths under a cost lookup. -/
def sumCost (cost : String → Nat) (paths : List String) : Nat :=
  (paths.map cost).sum

theorem le_foldr_max (l : List Nat) (x : Nat) (h : x ∈ l) :
    x ≤ l.foldr max 0 := by
  induction l with
  | nil => simp at h
  | cons y ys ih =>
    rw [List.foldr_cons]
    rcases List.mem_cons.mp h with rfl | h2
    · omega
    · have := ih h2
      omega

/-- Invariant of the two-shard greedy fold: if the two running totals
differ by at most M, every item costs at most M, and each total is the
summed cost of its collected paths, the same holds after assigning the
whole item list. -/
theorem greedy_pair_invariant (cost : String → Nat)
    (items : List (String × Nat)) (a b : Shard) (M : Nat)
    (hdiff : max a.2 b.2 ≤ min a.2 b.2 + M)
    (ha : a.2 = sumCost cost a.1) (hb : b.2 = sumCost cost b.1)
    (hitems : ∀ it ∈ items, it.2 ≤ M ∧ it.2 = cost it.1) :
    ∃ a2 b2 : Shard, items.foldl greedyAssign [a, b] = [a2, b2]
      ∧ max a2.2 b2.2 ≤ min a2.2 b2.2 + M
      ∧ a2.2 = sumCost cost a2.1 ∧ b2.2 = sumCost cost b2.1 := by
  induction items generalizing a b with
  | nil => exact ⟨a, b, rfl, hdiff, ha, hb⟩
  | cons it its ih =>
    rw [List.foldl_cons]
    obtain ⟨hM, hcost⟩ := hitems it (List.mem_cons_self _ _)
    have hrest : ∀ it2 ∈ its, it2.2 ≤ M ∧ it2.2 = cost it2.1 :=
      fun it2 h2 => hitems it2 (List.mem_cons_of_mem _ h2)
    by_cases hlt : b.2 < a.2
    · have hga : greedyAssign [a, b] it
          = [a, (b.1 ++ [it.1], b.2 + it.2)] := by
        unfold greedyAssign
        rw [minShardIdx_pair, if_pos hlt]
        rfl
      rw [hga]
      apply ih
      · show max a.2 (b.2 + it.2) ≤ min a.2 (b.2 + it.2) + M
        omega
      · exact ha
      · show b.2 + it.2 = sumCost cost (b.1 ++ [it.1])
        rw [hb, hcost]
        unfold sumCost
        rw [List.map_append, List.sum_append]
        rfl
      · exact hrest
    · have hga : greedyAssign [a, b] it
          = [(a.1 ++ [it.1], a.2 + it.2), b] := by
        unfold greedyAssign
        rw [minShardIdx_pair, if_neg hlt]
        rfl
      rw [hga]
      apply ih
      · show max (a.2 + it.2) b.2 ≤ min (a.2 + it.2) b.2 + M
        omega
      · show a.2 + it.2 = sumCost cost (a.1 ++ [it.1])
        rw [ha, hcost]
        unfold sumCost
        rw [List.map_append, List.sum_append]
        rfl
      · exact hb
      · exact hrest

/-- Core of claim C6: with two shards the greedy balancer keeps the gap
between the two shards' summed costs within the largest single cost. -/
theorem lpt_pair_balance (cost : String → Nat) (tests : List String) :
    ∃ l1 l2, lptDistribute cost tests ⟨1, 2⟩ = some l1
      ∧ lptDistribute cost tests ⟨2, 2⟩ = some l2
      ∧ max (sumCost cost l1) (sumCost cost l2)
          ≤ min (sumCost cost l1) (sumCost cost l2)
            + (tests.map cost).foldr max 0 := by
  have hitems : ∀ it ∈ sortByCostDesc (tests.map fun p => (p, cost p)),
      it.2 ≤ (tests.map cost).foldr max 0 ∧ it.2 = cost it.1 := by
    intro it hit
    have hmem : it ∈ tests.map fun p => (p, cost p) :=
      (sortByCostDesc_perm _).mem_iff.mp hit
    obtain ⟨p, hp, rfl⟩ := List.mem_map.mp hmem
    exact ⟨le_foldr_max _ _ (List.mem_map_of_mem cost hp), rfl⟩
  obtain ⟨a2, b2, hfold, hbal, hsa, hsb⟩ := greedy_pair_invariant cost
    (sortByCostDesc (tests.map fun p => (p, cost p))) ([], 0) ([], 0)
    ((tests.map cost).foldr max 0) (by simp) rfl rfl hitems
  refine ⟨a2.1, b2.1, ?_, ?_, ?_⟩
  · unfold lptDistribute
    dsimp only
    rw [if_pos (by constructor <;> decide)]
    rw [show List.replicate 2 (([], 0) : Shard) = [([], 0), ([], 0)]
      from rfl, hfold]
    rfl
  · unfold lptDistribute
    dsimp only
    rw [if_pos (by constructor <;> decide)]
    rw [show List.replicate 2 (([], 0) : Shard) = [([], 0), ([], 0)]
      from rfl, hfold]
    rfl
  · rw [← hsa, ← hsb]
    exact hbal

/-- C6: for FileSizeStrategy and SmartStrategy with total = 2, for every
test list and every cost assignment (file sizes, duration history), the
two shards' summed costs differ by at most the largest single test's
cost. -/
theorem c6_two_shard_cost_gap_bound (sizeOf : String → Nat)
    (history : String → Option Nat) (tests : List String) :
    (∃ l1 l2,
      FileSizeStrategy.distributeTests sizeOf tests ⟨1, 2⟩ = some l1
      ∧ FileSizeStrategy.distributeTests sizeOf tests ⟨2, 2⟩ = some l2
      ∧ max (sumCost sizeOf l1) (sumCost sizeOf l2)
          ≤ min (sumCost sizeOf l1) (sumCost sizeOf l2)
            + (tests.map sizeOf).foldr max 0)
    ∧ (∃ l1 l2,
      SmartStrategy.distributeTests history tests ⟨1, 2⟩ = some l1
      ∧ SmartStrategy.distributeTests history tests ⟨2, 2⟩ = some l2
      ∧ max (sumCost (SmartStrategy.duration history) l1)
            (sumCost (SmartStrategy.duration history) l2)
          ≤ min (sumCost (SmartStrategy.duration history) l1)
              (sumCost (SmartStrategy.duration history) l2)
            + (tests.map (SmartStrategy.duration history)).foldr max 0) :=
  ⟨lpt_pair_balance sizeOf tests,
   lpt_pair_balance (SmartStrategy.duration history) tests⟩

end JestAutoShard
